import Mathlib

/-!
Verification of the pattern-matching engine of `utkarsh5026/grope`
(package `matcher`: `Match`, `MatchWithIdx`, `matchStart` and their helpers).

Lines and patterns are byte sequences in the source; they are modelled as
`List Char` (the claims only concern byte-range characters, where Go's
rune/byte distinction is invisible).  The single-position matcher is a loop
whose body either returns or advances the pattern cursor — except in one
branch, so the model is fuel-indexed: one unit of fuel per loop iteration.
A result is `ok b consumed` (the Go function returned `b`, having advanced
its line cursor by `consumed`), `crash` (the Go code panics: slice or index
out of range), or `oot` (out of fuel; a state that yields `oot` for every
fuel models non-termination of the Go loop).
-/

namespace Matcher

/-- Result of one `matchStart` call: normal return with the final line-cursor
value, a runtime panic, or out-of-fuel. -/
inductive MRes where
  | ok : Bool → Nat → MRes
  | crash : MRes
  | oot : MRes
deriving DecidableEq, Repr

/-- Add `k` to the consumed count of a normal result (used when a token has
already consumed `k` line bytes before the loop continues). -/
def MRes.addConsumed (k : Nat) : MRes → MRes
  | .ok b n => .ok b (k + n)
  | .crash => .crash
  | .oot => .oot

/-- `unicode.IsDigit` on byte-range runes: exactly the ASCII digits. -/
def goIsDigit (c : Char) : Bool :=
  decide ('0' ≤ c) && decide (c ≤ '9')

/-- `unicode.IsLetter` on byte-range runes: ASCII letters plus the Latin-1
letters U+00AA, U+00B5, U+00BA, U+00C0–U+00D6, U+00D8–U+00F6, U+00F8–U+00FF. -/
def goIsLetter (c : Char) : Bool :=
  (decide (65 ≤ c.val) && decide (c.val ≤ 90)) ||
  (decide (97 ≤ c.val) && decide (c.val ≤ 122)) ||
  c.val == 0xAA || c.val == 0xB5 || c.val == 0xBA ||
  (decide (0xC0 ≤ c.val) && decide (c.val ≤ 0xD6)) ||
  (decide (0xD8 ≤ c.val) && decide (c.val ≤ 0xF6)) ||
  (decide (0xF8 ≤ c.val) && decide (c.val ≤ 0xFF))

/-- `matchEscapeSequence` from the source: `\d` is digit, `\w` is
letter/digit/underscore, anything else matches itself literally. -/
def matchEscapeSequence (char escapeChar : Char) : Bool :=
  if escapeChar = 'd' then goIsDigit char
  else if escapeChar = 'w' then goIsLetter char || goIsDigit char || char = '_'
  else char = escapeChar

/-- `matchCharacterClass` from the source.  `none` models the Go panic on an
empty class body (`class[0]` with `class = ""` is an index out of range). -/
def matchCharacterClass (char : Char) (cls : List Char) : Option Bool :=
  match cls with
  | [] => none
  | c0 :: rest =>
    if c0 = '^' then some (!(rest.contains char))
    else some ((c0 :: rest).contains char)

/-- `matchRepetition` from the source: length of the maximal run of `ch` at
the head of `line`. -/
def matchRepetition (line : List Char) (ch : Char) : Nat :=
  match line with
  | [] => 0
  | c :: rest => if c = ch then matchRepetition rest ch + 1 else 0

/-- `isQuantifier` from the source. -/
def isQuantifier (c : Char) : Bool :=
  c = '+' || c = '?' || c = '*'

/-- `handleQuantifier` from the source: greedy count plus acceptance flag. -/
def handleQuantifier (line : List Char) (ch q : Char) : Nat × Bool :=
  let count := matchRepetition line ch
  if q = '*' then (count, true)
  else if q = '+' then (count, decide (count > 0))
  else if q = '?' then (if count > 1 then 1 else count, true)
  else (0, false)

/-- `strings.IndexByte`: offset of the first occurrence, `none` for Go's -1. -/
def indexByte (s : List Char) (b : Char) : Option Nat :=
  match s with
  | [] => none
  | c :: rest => if c = b then some 0 else (indexByte rest b).map (· + 1)

/-- The alternation loop of the `'('` branch: try each alternative with the
given single-position matcher; first success returns `true` immediately. -/
def tryAltsWith (ms : List Char → MRes) : List (List Char) → MRes
  | [] => .ok false 0
  | alt :: rest =>
    match ms alt with
    | .ok true _ => .ok true 0
    | .ok false _ => tryAltsWith ms rest
    | .crash => .crash
    | .oot => .oot

/-- `matchStart` from the source, fuel-indexed (one unit per loop iteration).
The line and pattern arguments are the suffixes from the current cursors, so
the Go cursor state `(lineIdx, patIdx)` is `(line.drop lineIdx, pat.drop patIdx)`
here, and the consumed count in `ok` results is relative to the given suffix. -/
def matchStart : Nat → List Char → List Char → MRes
  | 0, _, _ => .oot
  | fuel + 1, line, pat =>
    match pat with
    | [] => .ok true 0
    | p0 :: prest =>
      match line with
      | [] => .ok (decide (prest = [] ∧ p0 = '$')) 0
      | l0 :: lrest =>
        if p0 = '\\' then
          match prest with
          | [] => .ok false 0
          | e :: prest2 =>
            if matchEscapeSequence l0 e then
              .addConsumed 1 (matchStart fuel lrest prest2)
            else .ok false 0
        else if p0 = '[' then
          match indexByte (p0 :: prest) ']' with
          | none => .ok false 0
          | some endIdx =>
            let chars := ((p0 :: prest).take endIdx).drop 1
            match matchCharacterClass l0 chars with
            | none => .crash
            | some true =>
              .addConsumed 1 (matchStart fuel lrest ((p0 :: prest).drop (endIdx + 1)))
            | some false => .ok false 0
        else if p0 = '(' then
          match indexByte (p0 :: prest) ')' with
          | none => .crash
          | some endIdx =>
            let sub := ((p0 :: prest).take endIdx).drop 1
            if sub.contains '|' then
              tryAltsWith (fun alt => matchStart fuel (l0 :: lrest) alt) (sub.splitOn '|')
            else
              matchStart fuel (l0 :: lrest) (p0 :: prest)
        else
          match prest with
          | q :: prest2 =>
            if isQuantifier q then
              let r := handleQuantifier (l0 :: lrest) p0 q
              if r.2 then
                .addConsumed r.1 (matchStart fuel ((l0 :: lrest).drop r.1) prest2)
              else .ok false 0
            else
              if p0 = l0 ∨ p0 = '.' then
                .addConsumed 1 (matchStart fuel lrest prest)
              else .ok false 0
          | [] =>
            if p0 = l0 ∨ p0 = '.' then
              .addConsumed 1 (matchStart fuel lrest [])
            else .ok false 0

/-- Result of `MatchWithIdx`: an integer index (`-1` for no match), a panic,
or out-of-fuel. -/
inductive IRes where
  | ok : Int → IRes
  | crash : IRes
  | oot : IRes
deriving DecidableEq, Repr

/-- The `for i := range line` scan of `MatchWithIdx`: try each start offset in
ascending order; `base` is the absolute offset of the current suffix. -/
def matchIdxAux (fuel : Nat) (pat : List Char) : List Char → Nat → IRes
  | [], _ => .ok (-1)
  | l0 :: lrest, i =>
    match matchStart fuel (l0 :: lrest) pat with
    | .ok true _ => .ok (Int.ofNat i)
    | .ok false _ => matchIdxAux fuel pat lrest (i + 1)
    | .crash => .crash
    | .oot => .oot

/-- `MatchWithIdx` from the source, fuel-indexed: empty pattern returns 0; a
leading `^` anchors the single attempt at offset 0; otherwise scan offsets. -/
def MatchWithIdx (fuel : Nat) (line pat : List Char) : IRes :=
  match pat with
  | [] => .ok 0
  | p0 :: prest =>
    if p0 = '^' then
      match matchStart fuel line prest with
      | .ok true _ => .ok 0
      | .ok false _ => .ok (-1)
      | .crash => .crash
      | .oot => .oot
    else matchIdxAux fuel pat line 0

/-- Result of `Match`: a boolean, a panic, or out-of-fuel. -/
inductive BRes where
  | ok : Bool → BRes
  | crash : BRes
  | oot : BRes
deriving DecidableEq, Repr

/-- `Match` from the source: `idx := MatchWithIdx(line, pattern); idx != -1`. -/
def Match (fuel : Nat) (line pat : List Char) : BRes :=
  match MatchWithIdx fuel line pat with
  | .ok i => .ok (decide (i ≠ -1))
  | .crash => .crash
  | .oot => .oot

theorem addConsumed_eq_ok {r : MRes} {k n : Nat} {b : Bool} :
    r.addConsumed k = .ok b n ↔ ∃ m, r = .ok b m ∧ n = k + m := by
  cases r with
  | ok b2 m =>
    simp only [MRes.addConsumed, MRes.ok.injEq]
    constructor
    · rintro ⟨rfl, rfl⟩
      exact ⟨m, ⟨rfl, rfl⟩, rfl⟩
    · rintro ⟨m2, ⟨rfl, rfl⟩, rfl⟩
      exact ⟨rfl, rfl⟩
  | crash => simp [MRes.addConsumed]
  | oot => simp [MRes.addConsumed]

theorem matchRepetition_le (line : List Char) (ch : Char) :
    matchRepetition line ch ≤ line.length := by
  induction line with
  | nil => simp [matchRepetition]
  | cons c rest ih =>
    by_cases h : c = ch
    · simp only [matchRepetition, if_pos h, List.length_cons]
      omega
    · simp [matchRepetition, h]

theorem matchRepetition_maximal (l : List Char) (c : Char) :
    ∀ m, m ≤ l.length →
      (((l.take m).all (fun x => x == c)) = true ↔ m ≤ matchRepetition l c) := by
  induction l with
  | nil =>
    intro m hm
    simp only [List.length_nil, Nat.le_zero] at hm
    subst hm
    simp
  | cons a t ih =>
    intro m hm
    cases m with
    | zero => simp
    | succ m2 =>
      have hm2 : m2 ≤ t.length := by simpa using Nat.le_of_succ_le_succ hm
      by_cases h : a = c
      · subst h
        simp only [List.take_succ_cons, List.all_cons, Bool.and_eq_true, beq_self_eq_true,
          true_and, matchRepetition, if_pos rfl, if_true, Nat.succ_le_succ_iff]
        exact ih m2 hm2
      · simp only [List.take_succ_cons, List.all_cons, Bool.and_eq_true, beq_iff_eq,
          matchRepetition, if_neg h]
        constructor
        · rintro ⟨hac, _⟩
          exact absurd hac h
        · intro hle
          exact absurd hle (by omega)

theorem indexByte_append (x : Char) (pre post : List Char) (h : x ∉ pre) :
    indexByte (pre ++ x :: post) x = some pre.length := by
  induction pre with
  | nil => simp [indexByte]
  | cons a t ih =>
    have ha : a ≠ x := fun e => h (by simp [e])
    have ht : x ∉ t := fun hx => h (List.mem_cons_of_mem _ hx)
    simp [indexByte, ha, ih ht]

theorem indexByte_eq_some (s : List Char) (x : Char) :
    ∀ e, indexByte s x = some e →
      ∃ pre post, s = pre ++ x :: post ∧ e = pre.length ∧ x ∉ pre := by
  induction s with
  | nil => intro e h; simp [indexByte] at h
  | cons a t ih =>
    intro e h
    by_cases ha : a = x
    · subst ha
      have h0 : e = 0 := by
        simp [indexByte] at h
        omega
      exact ⟨[], t, by simp, by simp [h0], by simp⟩
    · simp only [indexByte, if_neg ha] at h
      cases he : indexByte t x with
      | none => simp [he] at h
      | some e2 =>
        rw [he] at h
        simp at h
        obtain ⟨pre, post, rfl, rfl, hnp⟩ := ih e2 he
        refine ⟨a :: pre, post, by simp, by simp only [List.length_cons]; omega, ?_⟩
        intro hx
        rcases List.mem_cons.mp hx with hx | hx
        · exact ha hx.symm
        · exact hnp hx

theorem tryAltsWith_ok_true (ms : List Char → MRes) (alts : List (List Char)) :
    tryAltsWith ms alts = .ok true 0 ↔
      ∃ k, k < alts.length ∧ (∃ n, ms (alts.getD k []) = .ok true n) ∧
        ∀ j, j < k → ∃ n, ms (alts.getD j []) = .ok false n := by
  induction alts with
  | nil => simp [tryAltsWith]
  | cons a rest ih =>
    cases h : ms a with
    | ok b m =>
      cases b with
      | true =>
        simp only [tryAltsWith, h]
        constructor
        · intro _
          exact ⟨0, by simp, ⟨m, by simpa using h⟩, fun j hj => absurd hj (Nat.not_lt_zero j)⟩
        · intro _
          trivial
      | false =>
        simp only [tryAltsWith, h]
        rw [ih]
        constructor
        · rintro ⟨k, hk, ⟨n, hn⟩, hprev⟩
          refine ⟨k + 1, by simpa using Nat.succ_lt_succ hk, ⟨n, by simpa using hn⟩, ?_⟩
          intro j hj
          cases j with
          | zero => exact ⟨m, by simpa using h⟩
          | succ j2 =>
            obtain ⟨n2, hn2⟩ := hprev j2 (Nat.lt_of_succ_lt_succ hj)
            exact ⟨n2, by simpa using hn2⟩
        · rintro ⟨k, hk, ⟨n, hn⟩, hprev⟩
          cases k with
          | zero =>
            rw [List.getD_cons_zero, h] at hn
            simp at hn
          | succ k2 =>
            refine ⟨k2, Nat.lt_of_succ_lt_succ hk, ⟨n, by simpa using hn⟩, ?_⟩
            intro j hj
            obtain ⟨n2, hn2⟩ := hprev (j + 1) (Nat.succ_lt_succ hj)
            exact ⟨n2, by simpa using hn2⟩
    | crash =>
      simp only [tryAltsWith, h]
      constructor
      · intro hc
        simp at hc
      · rintro ⟨k, hk, ⟨n, hn⟩, hprev⟩
        cases k with
        | zero =>
          rw [List.getD_cons_zero, h] at hn
          simp at hn
        | succ k2 =>
          obtain ⟨n2, hn2⟩ := hprev 0 (Nat.succ_pos k2)
          rw [List.getD_cons_zero, h] at hn2
          simp at hn2
    | oot =>
      simp only [tryAltsWith, h]
      constructor
      · intro hc
        simp at hc
      · rintro ⟨k, hk, ⟨n, hn⟩, hprev⟩
        cases k with
        | zero =>
          rw [List.getD_cons_zero, h] at hn
          simp at hn
        | succ k2 =>
          obtain ⟨n2, hn2⟩ := hprev 0 (Nat.succ_pos k2)
          rw [List.getD_cons_zero, h] at hn2
          simp at hn2

theorem tryAltsWith_ok_false (ms : List Char → MRes) (alts : List (List Char)) :
    tryAltsWith ms alts = .ok false 0 ↔
      ∀ k, k < alts.length → ∃ n, ms (alts.getD k []) = .ok false n := by
  induction alts with
  | nil => simp [tryAltsWith]
  | cons a rest ih =>
    cases h : ms a with
    | ok b m =>
      cases b with
      | true =>
        simp only [tryAltsWith, h]
        constructor
        · intro hc
          simp at hc
        · intro hall
          obtain ⟨n, hn⟩ := hall 0 (Nat.succ_pos _)
          rw [List.getD_cons_zero, h] at hn
          simp at hn
      | false =>
        simp only [tryAltsWith, h]
        rw [ih]
        constructor
        · intro hall k hk
          cases k with
          | zero => exact ⟨m, by simpa using h⟩
          | succ k2 =>
            obtain ⟨n, hn⟩ := hall k2 (Nat.lt_of_succ_lt_succ hk)
            exact ⟨n, by simpa using hn⟩
        · intro hall k hk
          obtain ⟨n, hn⟩ := hall (k + 1) (Nat.succ_lt_succ hk)
          exact ⟨n, by simpa using hn⟩
    | crash =>
      simp only [tryAltsWith, h]
      constructor
      · intro hc
        simp at hc
      · intro hall
        obtain ⟨n, hn⟩ := hall 0 (Nat.succ_pos _)
        rw [List.getD_cons_zero, h] at hn
        simp at hn
    | oot =>
      simp only [tryAltsWith, h]
      constructor
      · intro hc
        simp at hc
      · intro hall
        obtain ⟨n, hn⟩ := hall 0 (Nat.succ_pos _)
        rw [List.getD_cons_zero, h] at hn
        simp at hn

theorem matchIdxAux_ok (fuel : Nat) (pat : List Char) :
    ∀ (l : List Char) (base : Nat) (i : Int), matchIdxAux fuel pat l base = .ok i →
      (i = -1 ∧ ∀ j, j < l.length → ∃ n, matchStart fuel (l.drop j) pat = .ok false n) ∨
      (∃ k : Nat, i = Int.ofNat (base + k) ∧ k < l.length ∧
        (∃ n, matchStart fuel (l.drop k) pat = .ok true n) ∧
        ∀ j, j < k → ∃ n, matchStart fuel (l.drop j) pat = .ok false n) := by
  intro l
  induction l with
  | nil =>
    intro base i h
    simp only [matchIdxAux, IRes.ok.injEq] at h
    left
    exact ⟨h.symm, fun j hj => absurd hj (by simp)⟩
  | cons l0 lrest ih =>
    intro base i h
    unfold matchIdxAux at h
    cases hms : matchStart fuel (l0 :: lrest) pat with
    | ok b n =>
      rw [hms] at h
      cases b with
      | true =>
        simp only [IRes.ok.injEq] at h
        right
        refine ⟨0, by simpa using h.symm, Nat.succ_pos _, ⟨n, by simpa using hms⟩,
          fun j hj => absurd hj (Nat.not_lt_zero j)⟩
      | false =>
        rcases ih (base + 1) i h with ⟨hi, hall⟩ | ⟨k, hik, hk, hsucc, hprev⟩
        · left
          refine ⟨hi, ?_⟩
          intro j hj
          cases j with
          | zero => exact ⟨n, by simpa using hms⟩
          | succ j2 =>
            obtain ⟨n2, hn2⟩ := hall j2 (by simpa using Nat.lt_of_succ_lt_succ hj)
            exact ⟨n2, by simpa using hn2⟩
        · right
          refine ⟨k + 1, by rw [hik]; congr 1; omega, by simpa using Nat.succ_lt_succ hk,
            ?_, ?_⟩
          · obtain ⟨n2, hn2⟩ := hsucc
            exact ⟨n2, by simpa using hn2⟩
          · intro j hj
            cases j with
            | zero => exact ⟨n, by simpa using hms⟩
            | succ j2 =>
              obtain ⟨n2, hn2⟩ := hprev j2 (Nat.lt_of_succ_lt_succ hj)
              exact ⟨n2, by simpa using hn2⟩
    | crash =>
      rw [hms] at h
      simp at h
    | oot =>
      rw [hms] at h
      simp at h

theorem handleQuantifier_fst_le (line : List Char) (c q : Char) :
    (handleQuantifier line c q).1 ≤ line.length := by
  have hle := matchRepetition_le line c
  simp only [handleQuantifier]
  split_ifs <;> simp <;> omega

theorem take_before_sep (pre post : List Char) (x : Char) :
    (pre ++ x :: post).take pre.length = pre := by
  have h : pre ++ x :: post = pre ++ ([x] ++ post) := by simp
  rw [h, List.take_left]

theorem drop_after_sep (pre post : List Char) (x : Char) :
    (pre ++ x :: post).drop (pre.length + 1) = post := by
  have h : pre ++ x :: post = (pre ++ [x]) ++ post := by simp
  rw [h, show pre.length + 1 = (pre ++ [x]).length by simp, List.drop_left]

theorem concat_last_eq {l1 l2 : List Char} {a b : Char} (h : l1 ++ [a] = l2 ++ [b]) :
    a = b := by
  have h1 := congrArg List.getLast? h
  simpa [List.getLast?_concat] using h1

theorem sep_post_ends (q pre post : List Char) (x : Char) (hx : x ≠ '$')
    (h : pre ++ x :: post = q ++ ['$']) : ∃ q4, post = q4 ++ ['$'] := by
  rcases List.eq_nil_or_concat post with rfl | ⟨q4, a, rfl⟩
  · have h2 : pre ++ [x] = q ++ ['$'] := by simpa using h
    exact absurd (concat_last_eq h2) hx
  · have ha : a = '$' := by
      have h2 : (pre ++ x :: q4) ++ [a] = q ++ ['$'] := by
        rw [← h]
        simp [List.concat_eq_append]
      exact concat_last_eq h2
    exact ⟨q4, by rw [ha, List.concat_eq_append]⟩

theorem matchStart_ends_at_eol (fuel : Nat) :
    ∀ (line q : List Char) (n : Nat),
      '(' ∉ q ++ ['$'] → '$' ∉ line →
      matchStart fuel line (q ++ ['$']) = .ok true n → n = line.length := by
  induction fuel with
  | zero =>
    intro line q n _ _ h
    simp [matchStart] at h
  | succ fuel ih =>
    intro line q n hp hd h
    cases q with
    | nil =>
      cases line with
      | nil =>
        simp [matchStart] at h
        simp only [List.length_nil]
        omega
      | cons l0 lrest =>
        have hl0 : l0 ≠ '$' := fun e => hd (by simp [e])
        simp [matchStart, isQuantifier, Ne.symm hl0] at h
    | cons p0 q2 =>
      rw [List.cons_append] at h hp
      have hp0 : p0 ≠ '(' := fun e => hp (by simp [e])
      have hp2 : '(' ∉ q2 ++ ['$'] := fun hx => hp (by simp [hx])
      cases line with
      | nil =>
        simp [matchStart] at h
      | cons l0 lrest =>
        have hd2 : '$' ∉ lrest := fun hx => hd (List.mem_cons_of_mem _ hx)
        have hl0 : l0 ≠ '$' := fun e => hd (by simp [e])
        by_cases hb : p0 = '\\'
        · subst hb
          cases q2 with
          | nil =>
            have hesc : matchEscapeSequence l0 '$' = false := by
              simp [matchEscapeSequence, hl0]
            simp [matchStart, hesc] at h
          | cons e q3 =>
            rw [List.cons_append] at h hp2
            by_cases he : matchEscapeSequence l0 e = true
            · simp [matchStart, he] at h
              rw [addConsumed_eq_ok] at h
              obtain ⟨m, hm, rfl⟩ := h
              have hp3 : '(' ∉ q3 ++ ['$'] := fun hx => hp2 (by simp [hx])
              have := ih lrest q3 m hp3 hd2 hm
              simp only [this, List.length_cons]
              omega
            · simp [matchStart, he] at h
        · by_cases hbr : p0 = '['
          · subst hbr
            cases hidx : indexByte ('[' :: (q2 ++ ['$'])) ']' with
            | none =>
              simp [matchStart, hb, hidx] at h
            | some e =>
              obtain ⟨pre, post, hsplit, he, hnpre⟩ :=
                indexByte_eq_some ('[' :: (q2 ++ ['$'])) ']' e hidx
              cases pre with
              | nil => simp at hsplit
              | cons c0 pre2 =>
                obtain ⟨hc0, hq2⟩ : c0 = '[' ∧ q2 ++ ['$'] = pre2 ++ ']' :: post := by
                  constructor
                  · exact (List.cons.injEq _ _ _ _ ▸ hsplit).1.symm
                  · exact (List.cons.injEq _ _ _ _ ▸ hsplit).2
                subst hc0
                have he2 : e = pre2.length + 1 := by simp [he]
                have htake : ((('[' :: (q2 ++ ['$'])).take e).drop 1) = pre2 := by
                  rw [he2, List.take_succ_cons, List.drop_succ_cons, List.drop_zero, hq2,
                    take_before_sep]
                have hdrop : ('[' :: (q2 ++ ['$'])).drop (e + 1) = post := by
                  rw [he2, show pre2.length + 1 + 1 = pre2.length + 2 from rfl,
                    show ('[' :: (q2 ++ ['$'])).drop (pre2.length + 2) =
                      (q2 ++ ['$']).drop (pre2.length + 1) from rfl, hq2, drop_after_sep]
                cases hcls : matchCharacterClass l0 pre2 with
                | none =>
                  simp [matchStart, hb, hidx, htake, hcls] at h
                | some bcls =>
                  cases bcls with
                  | false => simp [matchStart, hb, hidx, htake, hcls] at h
                  | true =>
                    simp [matchStart, hb, hidx, htake, hdrop, hcls] at h
                    rw [addConsumed_eq_ok] at h
                    obtain ⟨m, hm, rfl⟩ := h
                    obtain ⟨q4, rfl⟩ :=
                      sep_post_ends q2 pre2 post ']' (by decide) hq2.symm
                    have hppost : '(' ∉ q4 ++ ['$'] := by
                      rw [hq2] at hp2
                      exact fun hx => hp2 (by simp [hx])
                    have := ih lrest q4 m hppost hd2 hm
                    simp only [this, List.length_cons]
                    omega
          · cases q2 with
            | nil =>
              by_cases hlit : p0 = l0 ∨ p0 = '.'
              · simp [matchStart, hb, hbr, hp0, isQuantifier, hlit] at h
                rw [addConsumed_eq_ok] at h
                obtain ⟨m, hm, rfl⟩ := h
                have := ih lrest [] m (by simp) hd2 hm
                simp only [this, List.length_cons]
                omega
              · simp [matchStart, hb, hbr, hp0, isQuantifier, hlit] at h
            | cons qq q3 =>
              rw [List.cons_append] at h hp2
              by_cases hqq : isQuantifier qq = true
              · by_cases hr : (handleQuantifier (l0 :: lrest) p0 qq).2 = true
                · simp [matchStart, hb, hbr, hp0, hqq, hr] at h
                  rw [addConsumed_eq_ok] at h
                  obtain ⟨m, hm, rfl⟩ := h
                  have hp3 : '(' ∉ q3 ++ ['$'] := fun hx => hp2 (by simp [hx])
                  have hdd : '$' ∉ (l0 :: lrest).drop (handleQuantifier (l0 :: lrest) p0 qq).1 :=
                    fun hx => hd (List.drop_subset _ _ hx)
                  have hm2 := ih _ q3 m hp3 hdd hm
                  have hle := handleQuantifier_fst_le (l0 :: lrest) p0 qq
                  rw [List.length_drop] at hm2
                  simp only [List.length_cons] at hle hm2 ⊢
                  omega
                · simp [matchStart, hb, hbr, hp0, hqq, hr] at h
              · by_cases hlit : p0 = l0 ∨ p0 = '.'
                · simp [matchStart, hb, hbr, hp0, hqq, hlit] at h
                  rw [addConsumed_eq_ok] at h
                  obtain ⟨m, hm, rfl⟩ := h
                  have := ih lrest (qq :: q3) m (by rw [List.cons_append]; exact hp2) hd2
                    (by rw [List.cons_append]; exact hm)
                  simp only [this, List.length_cons]
                  omega
                · simp [matchStart, hb, hbr, hp0, hqq, hlit] at h

theorem matchStart_quant_step (fuel : Nat) (l0 : Char) (lrest : List Char)
    (c q : Char) (rest : List Char)
    (hc1 : c ≠ '\\') (hc2 : c ≠ '[') (hc3 : c ≠ '(') (hq : isQuantifier q = true) :
    matchStart (fuel + 1) (l0 :: lrest) (c :: q :: rest) =
      (if (handleQuantifier (l0 :: lrest) c q).2 then
        MRes.addConsumed (handleQuantifier (l0 :: lrest) c q).1
          (matchStart fuel ((l0 :: lrest).drop (handleQuantifier (l0 :: lrest) c q).1) rest)
      else .ok false 0) := by
  simp [matchStart, hc1, hc2, hc3, hq]

theorem matchStart_paren_step (fuel : Nat) (l0 : Char) (lrest : List Char)
    (pre post : List Char) (hpre : ')' ∉ pre) :
    matchStart (fuel + 1) (l0 :: lrest) ('(' :: (pre ++ ')' :: post)) =
      (if pre.contains '|' then
        tryAltsWith (fun alt => matchStart fuel (l0 :: lrest) alt) (pre.splitOn '|')
      else matchStart fuel (l0 :: lrest) ('(' :: (pre ++ ')' :: post))) := by
  have hidx : indexByte ('(' :: (pre ++ ')' :: post)) ')' = some (pre.length + 1) := by
    have h1 := indexByte_append ')' pre post hpre
    simp [indexByte, h1]
  have htake : ((('(' :: (pre ++ ')' :: post)).take (pre.length + 1)).drop 1) = pre := by
    rw [List.take_succ_cons, List.drop_succ_cons, List.drop_zero, take_before_sep]
  simp [matchStart, hidx, htake]

theorem matchStart_bracket_step (fuel : Nat) (c : Char) (lrest : List Char)
    (body rest2 : List Char) (hnb : ']' ∉ body) :
    matchStart (fuel + 1) (c :: lrest) ('[' :: (body ++ ']' :: rest2)) =
      (match matchCharacterClass c body with
       | none => .crash
       | some true => .addConsumed 1 (matchStart fuel lrest rest2)
       | some false => .ok false 0) := by
  have hidx : indexByte ('[' :: (body ++ ']' :: rest2)) ']' = some (body.length + 1) := by
    have h1 := indexByte_append ']' body rest2 hnb
    simp [indexByte, h1]
  have htake : ((('[' :: (body ++ ']' :: rest2)).take (body.length + 1)).drop 1) = body := by
    rw [List.take_succ_cons, List.drop_succ_cons, List.drop_zero, take_before_sep]
  have hdrop : ('[' :: (body ++ ']' :: rest2)).drop (body.length + 1 + 1) = rest2 := by
    rw [show body.length + 1 + 1 = body.length + 2 from rfl,
      show ('[' :: (body ++ ']' :: rest2)).drop (body.length + 2) =
        (body ++ ']' :: rest2).drop (body.length + 1) from rfl, drop_after_sep]
  simp [matchStart, hidx, htake, hdrop]

/-- Claim C9: the empty pattern matches every line, including the empty line:
`MatchWithIdx` returns offset 0 and `Match` returns true, at every fuel. -/
theorem empty_pattern_matches (fuel : Nat) (line : List Char) :
    MatchWithIdx fuel line [] = .ok 0 ∧ Match fuel line [] = .ok true :=
  ⟨rfl, rfl⟩

/-- Claim C2: `Match` returns true exactly when `MatchWithIdx` returns an
index different from -1 (and propagates the same panic or divergence). -/
theorem match_iff_idx_ne_neg_one (fuel : Nat) (line pat : List Char) :
    Match fuel line pat = .ok true ↔
      ∃ i : Int, MatchWithIdx fuel line pat = .ok i ∧ i ≠ -1 := by
  cases h : MatchWithIdx fuel line pat with
  | ok i =>
    simp only [Match, h, IRes.ok.injEq]
    constructor
    · intro hb
      simp only [BRes.ok.injEq, decide_eq_true_eq] at hb
      exact ⟨i, rfl, hb⟩
    · rintro ⟨j, rfl, hne⟩
      simp [hne]
  | crash =>
    simp only [Match, h]
    constructor
    · intro hb
      simp at hb
    · rintro ⟨j, hj, _⟩
      simp at hj
  | oot =>
    simp only [Match, h]
    constructor
    · intro hb
      simp at hb
    · rintro ⟨j, hj, _⟩
      simp at hj

/-- Claim C1: for a non-empty pattern not starting with '^', when
`MatchWithIdx` returns an index, that index is either -1 with every offset in
`0..len(line)-1` failing, or the smallest offset at which the single-position
matcher succeeds on the corresponding line suffix. -/
theorem matchWithIdx_leftmost (fuel : Nat) (line pat : List Char) (i : Int)
    (hne : pat ≠ []) (hh : pat.head? ≠ some '^')
    (h : MatchWithIdx fuel line pat = .ok i) :
    (i = -1 ∧ ∀ j, j < line.length → ∃ n, matchStart fuel (line.drop j) pat = .ok false n) ∨
    (∃ k : Nat, i = Int.ofNat k ∧ k < line.length ∧
      (∃ n, matchStart fuel (line.drop k) pat = .ok true n) ∧
      ∀ j, j < k → ∃ n, matchStart fuel (line.drop j) pat = .ok false n) := by
  cases pat with
  | nil => exact absurd rfl hne
  | cons p0 prest =>
    have hp0 : p0 ≠ '^' := fun e => hh (by simp [e])
    simp only [MatchWithIdx, if_neg hp0] at h
    rcases matchIdxAux_ok fuel (p0 :: prest) line 0 i h with hl | ⟨k, hik, hk, hs, hprev⟩
    · exact Or.inl hl
    · exact Or.inr ⟨k, by simpa using hik, hk, hs, hprev⟩

/-- Witness for C1: line "xab", pattern "ab", fuel 5; the reported index 1 is
the leftmost offset whose single-position attempt succeeds. -/
theorem matchWithIdx_leftmost_wit :
    ((1 : Int) = -1 ∧ ∀ j, j < (['x', 'a', 'b'] : List Char).length →
        ∃ n, matchStart 5 ((['x', 'a', 'b'] : List Char).drop j) ['a', 'b'] = .ok false n) ∨
    (∃ k : Nat, (1 : Int) = Int.ofNat k ∧ k < (['x', 'a', 'b'] : List Char).length ∧
      (∃ n, matchStart 5 ((['x', 'a', 'b'] : List Char).drop k) ['a', 'b'] = .ok true n) ∧
      ∀ j, j < k →
        ∃ n, matchStart 5 ((['x', 'a', 'b'] : List Char).drop j) ['a', 'b'] = .ok false n) :=
  matchWithIdx_leftmost 5 ['x', 'a', 'b'] ['a', 'b'] 1 (by decide) (by decide) (by decide)

/-- Claim C3 (code bug): `Match`/`MatchWithIdx` do not always absorb malformed
pattern fragments as a failed attempt: an unterminated alternation group makes
the Go code panic (slice out of range on `pattern[patIdx+1 : patIdx+endIdx]`
with `endIdx = -1`), and an empty bracket-class body panics (`class[0]` on an
empty string), at every fuel; the other malformed fragments (unterminated
bracket class, dangling backslash) do degrade to a plain failure. -/
theorem malformed_pattern_crashes :
    (∀ fuel : Nat, MatchWithIdx (fuel + 1) ['a'] ['('] = .crash) ∧
    (∀ fuel : Nat, MatchWithIdx (fuel + 1) ['a'] ['[', ']'] = .crash) ∧
    (∀ fuel : Nat, MatchWithIdx (fuel + 1) ['a'] ['['] = .ok (-1)) ∧
    (∀ fuel : Nat, MatchWithIdx (fuel + 1) ['a'] ['\\'] = .ok (-1)) := by
  refine ⟨fun fuel => ?_, fun fuel => ?_, fun fuel => ?_, fun fuel => ?_⟩
  · simp [MatchWithIdx, matchIdxAux, matchStart, indexByte]
  · simp [MatchWithIdx, matchIdxAux, matchStart, indexByte, matchCharacterClass]
  · simp [MatchWithIdx, matchIdxAux, matchStart, indexByte]
  · simp [MatchWithIdx, matchIdxAux, matchStart]

/-- Claim C4 (code bug): the `matchStart` loop does not always terminate: on
line "x" and pattern "(ab)" (a parenthesised group whose interior has no '|')
the loop body neither returns nor advances the pattern cursor, so the attempt
runs forever (out of fuel at every fuel), and `MatchWithIdx` diverges with
it. -/
theorem group_without_pipe_diverges :
    (∀ fuel : Nat, matchStart fuel ['x'] ['(', 'a', 'b', ')'] = .oot) ∧
    (∀ fuel : Nat, MatchWithIdx fuel ['x'] ['(', 'a', 'b', ')'] = .oot) := by
  have hms : ∀ fuel : Nat, matchStart fuel ['x'] ['(', 'a', 'b', ')'] = .oot := by
    intro fuel
    induction fuel with
    | zero => rfl
    | succ fuel ih => simp [matchStart, indexByte, ih]
  refine ⟨hms, fun fuel => ?_⟩
  simp [MatchWithIdx, matchIdxAux, hms fuel]

/-- Claim C5 counterexample: the pattern "$" ends in '$', yet `MatchWithIdx`
on line "ab$c" reports a match at offset 2 whose attempt consumes exactly one
byte (the literal '$'), ending at index 3 rather than at the end of the
4-byte line. -/
theorem end_anchor_counterexample :
    MatchWithIdx 5 ['a', 'b', '$', 'c'] ['$'] = .ok 2 ∧
    matchStart 5 ((['a', 'b', '$', 'c'] : List Char).drop 2) ['$'] = .ok true 1 ∧
    2 + 1 ≠ (['a', 'b', '$', 'c'] : List Char).length :=
  ⟨by decide, by decide, by decide⟩

/-- Claim C5 (amended): for a pattern ending in '$' that contains no '(' and a
line containing no literal '$' byte, any match reported by `MatchWithIdx` at
offset `k` has its single-position attempt (on the pattern with a leading '^'
anchor stripped) consume the line suffix exactly to the end of the line. -/
theorem matchWithIdx_end_anchor (fuel : Nat) (line pat : List Char) (i : Int)
    (hq : ∃ q, pat = q ++ ['$']) (hnp : '(' ∉ pat) (hnd : '$' ∉ line)
    (h : MatchWithIdx fuel line pat = .ok i) (hi : 0 ≤ i) :
    ∃ k n : Nat, i = Int.ofNat k ∧
      matchStart fuel (line.drop k) (if pat.head? = some '^' then pat.drop 1 else pat)
        = .ok true n ∧ k + n = line.length := by
  obtain ⟨q, rfl⟩ := hq
  by_cases hanchor : (q ++ ['$']).head? = some '^'
  · cases q with
    | nil => simp at hanchor
    | cons p0 q2 =>
      have hp0 : p0 = '^' := by simpa using hanchor
      subst hp0
      rw [List.cons_append] at h hnp
      simp only [MatchWithIdx, if_pos rfl] at h
      cases hms : matchStart fuel line (q2 ++ ['$']) with
      | ok b n =>
        rw [hms] at h
        cases b with
        | true =>
          simp at h
          have hp2 : '(' ∉ q2 ++ ['$'] := fun hx => hnp (by simp [hx])
          have hlen := matchStart_ends_at_eol fuel line q2 n hp2 hnd hms
          refine ⟨0, n, by rw [show Int.ofNat 0 = 0 from rfl]; omega, ?_, by omega⟩
          rw [if_pos (by rw [List.cons_append]; rfl)]
          simpa using hms
        | false =>
          simp at h
          exact absurd hi (by omega)
      | crash =>
        rw [hms] at h
        simp at h
      | oot =>
        rw [hms] at h
        simp at h
  · cases hqe : q ++ ['$'] with
    | nil => simp at hqe
    | cons p0 prest =>
      have hp0 : p0 ≠ '^' := fun e => hanchor (by rw [hqe, e]; rfl)
      rw [hqe] at h
      simp only [MatchWithIdx, if_neg hp0] at h
      rcases matchIdxAux_ok fuel (p0 :: prest) line 0 i h with ⟨hi1, _⟩ |
        ⟨k, hik, hk, ⟨n, hn⟩, _⟩
      · omega
      · have hn2 := hn
        rw [← hqe] at hn2
        have hd2 : '$' ∉ line.drop k := fun hx => hnd (List.drop_subset _ _ hx)
        have hlen := matchStart_ends_at_eol fuel (line.drop k) q n hnp hd2 hn2
        rw [List.length_drop] at hlen
        refine ⟨k, n, by simpa using hik, ?_, by omega⟩
        rw [if_neg (by simpa using hp0)]
        exact hn

/-- Witness for the amended C5: line "ba", pattern "a$", fuel 5; the match is
at offset 1 and consumes through the end of the line. -/
theorem matchWithIdx_end_anchor_wit :
    ∃ k n : Nat, (1 : Int) = Int.ofNat k ∧
      matchStart 5 ((['b', 'a'] : List Char).drop k)
        (if (['a', '$'] : List Char).head? = some '^' then (['a', '$'] : List Char).drop 1
         else ['a', '$']) = .ok true n ∧ k + n = (['b', 'a'] : List Char).length :=
  matchWithIdx_end_anchor 5 ['b', 'a'] ['a', '$'] 1 ⟨['a'], rfl⟩ (by decide) (by decide)
    (by decide) (by decide)

/-- Claim C6: when the pattern character under the cursor (one the earlier
dispatch cases do not claim: not '\\', '[' or '(') is immediately followed by
a quantifier, the matcher counts the maximal run of line bytes equal to that
character (greedy, possibly zero); '*' accepts any count, '+' fails exactly
when the count is zero, '?' clamps the accepted count to at most 1; on
success the line cursor advances by the accepted count and the pattern cursor
by 2, and the match continues with that count fixed (no backtracking). -/
theorem quantifier_semantics (fuel : Nat) (l0 : Char) (lrest : List Char)
    (c : Char) (rest : List Char) (hc1 : c ≠ '\\') (hc2 : c ≠ '[') (hc3 : c ≠ '(') :
    (∀ m, m ≤ (l0 :: lrest).length →
      ((((l0 :: lrest).take m).all (fun x => x == c)) = true ↔
        m ≤ matchRepetition (l0 :: lrest) c)) ∧
    matchStart (fuel + 1) (l0 :: lrest) (c :: '*' :: rest) =
      MRes.addConsumed (matchRepetition (l0 :: lrest) c)
        (matchStart fuel ((l0 :: lrest).drop (matchRepetition (l0 :: lrest) c)) rest) ∧
    matchStart (fuel + 1) (l0 :: lrest) (c :: '+' :: rest) =
      (if matchRepetition (l0 :: lrest) c = 0 then .ok false 0
       else MRes.addConsumed (matchRepetition (l0 :: lrest) c)
        (matchStart fuel ((l0 :: lrest).drop (matchRepetition (l0 :: lrest) c)) rest)) ∧
    matchStart (fuel + 1) (l0 :: lrest) (c :: '?' :: rest) =
      MRes.addConsumed (min (matchRepetition (l0 :: lrest) c) 1)
        (matchStart fuel ((l0 :: lrest).drop (min (matchRepetition (l0 :: lrest) c) 1)) rest) := by
  refine ⟨matchRepetition_maximal _ _, ?_, ?_, ?_⟩
  · rw [matchStart_quant_step fuel l0 lrest c '*' rest hc1 hc2 hc3 (by decide)]
    simp [handleQuantifier]
  · rw [matchStart_quant_step fuel l0 lrest c '+' rest hc1 hc2 hc3 (by decide)]
    by_cases h0 : matchRepetition (l0 :: lrest) c = 0
    · simp [handleQuantifier, h0]
    · simp [handleQuantifier, h0, Nat.pos_of_ne_zero h0]
  · rw [matchStart_quant_step fuel l0 lrest c '?' rest hc1 hc2 hc3 (by decide)]
    have hmin : (if matchRepetition (l0 :: lrest) c > 1 then 1
        else matchRepetition (l0 :: lrest) c) = min (matchRepetition (l0 :: lrest) c) 1 := by
      by_cases h1 : matchRepetition (l0 :: lrest) c > 1
      · rw [if_pos h1, Nat.min_def, if_neg (by omega)]
      · rw [if_neg h1, Nat.min_def, if_pos (by omega)]
    simp only [handleQuantifier]
    simp only [show (('?' : Char) = '*') = False by simp, show (('?' : Char) = '+') = False by simp,
      show (('?' : Char) = '?') = True by simp, if_false, if_true]
    rw [hmin]

/-- Witness for C6: one 'a' repeated under "a*" consumes the whole run. -/
theorem quantifier_semantics_wit :
    matchStart 4 ['a'] ['a', '*'] =
      MRes.addConsumed (matchRepetition ['a'] 'a')
        (matchStart 3 ((['a'] : List Char).drop (matchRepetition ['a'] 'a')) []) :=
  (quantifier_semantics 3 'a' [] 'a' [] (by decide) (by decide) (by decide)).2.1

/-- Claim C7: at a parenthesised group whose interior (the text before the
first ')') contains '|', the alternatives obtained by splitting the interior
on '|' are tried in listed order, each as a fresh single-position attempt on
the current line suffix; the first success makes the whole attempt succeed
immediately and the pattern text after ')' is never examined; if every
alternative fails the attempt fails. -/
theorem alternation_semantics (fuel : Nat) (l0 : Char) (lrest : List Char)
    (pre post : List Char) (hpre : ')' ∉ pre) (hbar : '|' ∈ pre) :
    (∀ post2, matchStart (fuel + 1) (l0 :: lrest) ('(' :: (pre ++ ')' :: post2)) =
      matchStart (fuel + 1) (l0 :: lrest) ('(' :: (pre ++ ')' :: post))) ∧
    (matchStart (fuel + 1) (l0 :: lrest) ('(' :: (pre ++ ')' :: post)) = .ok true 0 ↔
      ∃ k, k < (pre.splitOn '|').length ∧
        (∃ n, matchStart fuel (l0 :: lrest) ((pre.splitOn '|').getD k []) = .ok true n) ∧
        ∀ j, j < k →
          ∃ n, matchStart fuel (l0 :: lrest) ((pre.splitOn '|').getD j []) = .ok false n) ∧
    (matchStart (fuel + 1) (l0 :: lrest) ('(' :: (pre ++ ')' :: post)) = .ok false 0 ↔
      ∀ k, k < (pre.splitOn '|').length →
        ∃ n, matchStart fuel (l0 :: lrest) ((pre.splitOn '|').getD k []) = .ok false n) := by
  have hcont : pre.contains '|' = true := List.elem_iff.mpr hbar
  have hstep := matchStart_paren_step fuel l0 lrest pre post hpre
  rw [if_pos hcont] at hstep
  refine ⟨?_, ?_, ?_⟩
  · intro post2
    have hstep2 := matchStart_paren_step fuel l0 lrest pre post2 hpre
    rw [if_pos hcont] at hstep2
    rw [hstep, hstep2]
  · rw [hstep]
    exact tryAltsWith_ok_true _ _
  · rw [hstep]
    exact tryAltsWith_ok_false _ _

/-- Witness for C7: with group interior "a|b", the attempt on line "a" is
independent of the pattern text after ')'. -/
theorem alternation_semantics_wit :
    matchStart 4 ['a'] ('(' :: (['a', '|', 'b'] ++ ')' :: [])) =
      matchStart 4 ['a'] ('(' :: (['a', '|', 'b'] ++ ')' :: ['x'])) :=
  (alternation_semantics 3 'a' [] ['a', '|', 'b'] ['x'] (by decide) (by decide)).1 []

/-- Claim C8: for a bracket-class body `b` (non-empty, not beginning with '^',
and — being a class body, delimited by the first ']' — containing no ']'), a
single-position match of "[b]" against a line beginning with `c` succeeds iff
`c` occurs in `b`, and a single-position match of "[^b]" succeeds iff `c`
does not occur in `b`. -/
theorem bracket_class_symmetry (fuel : Nat) (c : Char) (lrest b : List Char)
    (hne : b ≠ []) (hhead : b.head? ≠ some '^') (hnb : ']' ∉ b) :
    ((matchStart (fuel + 2) (c :: lrest) ('[' :: (b ++ [']'])) = .ok true 1) ↔ c ∈ b) ∧
    ((matchStart (fuel + 2) (c :: lrest) ('[' :: ('^' :: b ++ [']'])) = .ok true 1) ↔
      c ∉ b) := by
  constructor
  · rw [show ('[' :: (b ++ [']'])) = ('[' :: (b ++ ']' :: [])) from rfl,
      matchStart_bracket_step (fuel + 1) c lrest b [] hnb]
    cases b with
    | nil => exact absurd rfl hne
    | cons b0 bt =>
      have hb0 : b0 ≠ '^' := fun e => hhead (by simp [e])
      simp only [matchCharacterClass, if_neg hb0]
      by_cases hc : c ∈ b0 :: bt
      · have hct : (b0 :: bt).contains c = true := List.elem_iff.mpr hc
        rw [hct]
        simp [matchStart, MRes.addConsumed, hc]
      · have hfalse : (b0 :: bt).contains c = false := by
          have h1 : ¬((b0 :: bt).contains c = true) := fun hh => hc (List.elem_iff.mp hh)
          rw [Bool.not_eq_true] at h1
          exact h1
        rw [hfalse]
        simp [hc]
  · have hnb2 : ']' ∉ '^' :: b := by
      intro hx
      rcases List.mem_cons.mp hx with hx | hx
      · exact absurd hx (by decide)
      · exact hnb hx
    rw [show ('[' :: ('^' :: b ++ [']'])) = ('[' :: (('^' :: b) ++ ']' :: [])) from rfl,
      matchStart_bracket_step (fuel + 1) c lrest ('^' :: b) [] hnb2]
    simp only [matchCharacterClass, if_pos rfl, if_true]
    by_cases hc : c ∈ b
    · have hct : b.contains c = true := List.elem_iff.mpr hc
      rw [hct]
      simp [hc]
    · have hfalse : b.contains c = false := by
        have h1 : ¬(b.contains c = true) := fun hh => hc (List.elem_iff.mp hh)
        rw [Bool.not_eq_true] at h1
        exact h1
      rw [hfalse]
      simp [matchStart, MRes.addConsumed, hc]

/-- Witness for C8: body "ab" and character 'b': "[ab]" matches, "[^ab]" does
not. -/
theorem bracket_class_symmetry_wit :
    ((matchStart 2 ['b'] ('[' :: (['a', 'b'] ++ [']'])) = .ok true 1) ↔
      'b' ∈ (['a', 'b'] : List Char)) ∧
    ((matchStart 2 ['b'] ('[' :: ('^' :: ['a', 'b'] ++ [']'])) = .ok true 1) ↔
      'b' ∉ (['a', 'b'] : List Char)) :=
  bracket_class_symmetry 0 'b' [] ['a', 'b'] (by decide) (by decide) (by decide)

/-- Claim C10: a '.' immediately before a quantifier is treated as the
literal byte '.', not as the any-character wildcard: the repetition counter
counts exactly the leading literal '.' bytes, a non-dot leading byte makes
".+" fail at that position, and Match("ab", "^.+") returns false even though
the line is non-empty. -/
theorem dot_quantifier_is_literal :
    (∀ l : List Char, matchRepetition l '.' = (l.takeWhile (fun x => x == '.')).length) ∧
    (∀ (fuel : Nat) (l0 : Char) (lrest rest : List Char), l0 ≠ '.' →
      matchStart (fuel + 1) (l0 :: lrest) ('.' :: '+' :: rest) = .ok false 0) ∧
    Match 5 ['a', 'b'] ['^', '.', '+'] = .ok false ∧ (['a', 'b'] : List Char) ≠ [] := by
  refine ⟨?_, ?_, by decide, by decide⟩
  · intro l
    induction l with
    | nil => simp [matchRepetition]
    | cons a t ih =>
      by_cases h : a = '.'
      · simp [matchRepetition, h, List.takeWhile_cons, ih]
      · simp [matchRepetition, h, List.takeWhile_cons]
  · intro fuel l0 lrest rest hl0
    rw [matchStart_quant_step fuel l0 lrest '.' '+' rest (by decide) (by decide) (by decide)
      (by decide)]
    have h0 : matchRepetition (l0 :: lrest) '.' = 0 := by
      simp [matchRepetition, hl0]
    simp [handleQuantifier, h0]

/-- Witness for C10: line "ab" does not start with a literal dot, so ".+"
fails at that position. -/
theorem dot_quantifier_is_literal_wit :
    matchStart 3 ['a', 'b'] ('.' :: '+' :: []) = .ok false 0 :=
  dot_quantifier_is_literal.2.1 2 'a' ['b'] [] (by decide)

end Matcher
